import Mathlib

/-!
Verification of the `versian` Debian-version library.

Strings are modelled as `List Char` (`Str`).  The parser, validators,
renderer and field mutator are translated from `src/lib.rs`,
`src/validations.rs` and `src/error.rs`.  The ordering routine
(`rust_apt::util::cmp_versions`, behind the optional `cmp` feature) is an
external native routine, not part of this repository's sources; it is
modelled from the specification's segment algorithm (§4.3).
-/

namespace Versian

/-- A borrowed/owned Rust string, modelled as its character sequence. -/
abbrev Str := List Char

/-- The error enumeration of `src/error.rs` (`DebianVersionError`). -/
inductive DebianVersionError where
  | InvalidEpoch
  | Empty
  | InvalidUpstream
  | EmptyUpstream
  | UpstreamStartWithDigit
  | UpstreamInvalidCharacters
  | EmptyRevision
  | RevisionInvalidCharacters
  | InvalidFlags
deriving DecidableEq, Repr

/-- The version record of `src/lib.rs` (`DebianVersion`): optional `usize`
epoch, upstream version string, optional revision string. -/
structure DebianVersion where
  epoch : Option Nat
  upstream_version : Str
  debian_revision : Option Str
deriving DecidableEq, Repr

/-- Rust `str::split_once(c)`: split at the first occurrence of `c`,
returning the parts before and after it (neither containing that
occurrence). -/
def splitOnce (c : Char) : Str → Option (Str × Str)
  | [] => none
  | x :: xs =>
    if x = c then some ([], xs)
    else (splitOnce c xs).map (fun p => (x :: p.1, p.2))

/-- Rust `str::rsplit_once(c)`: split at the last occurrence of `c`. -/
def rsplitOnce (c : Char) (s : Str) : Option (Str × Str) :=
  match splitOnce c s.reverse with
  | none => none
  | some (a, b) => some (b.reverse, a.reverse)

/-- Decimal reading of a digit string, as done by Rust's `usize`
parsing once the characters are known to be ASCII digits. -/
def readNat (s : Str) : Nat :=
  s.foldl (fun a c => a * 10 + (c.toNat - 48)) 0

/-- `usize::MAX` on the 64-bit targets this crate is built for. -/
def USIZE_MAX : Nat := 18446744073709551615

/-- The sign handling of Rust's unsigned integer `FromStr`: one leading
`'+'` is accepted and stripped; a `'-'` is not a sign for `usize` and is
left in place (it then fails the digit test). -/
def stripPlus (s : Str) : Str :=
  match s with
  | [] => s
  | c :: rest => if c = '+' then rest else s

/-- Rust `str::parse::<usize>()`: optional leading `'+'`, then a
non-empty run of ASCII digits whose value fits in `usize`; anything else
is a `ParseIntError` (here `none`). -/
def parseUsize (s : Str) : Option Nat :=
  if stripPlus s = [] then none
  else if (stripPlus s).all Char.isDigit then
    if readNat (stripPlus s) ≤ USIZE_MAX then some (readNat (stripPlus s)) else none
  else none

/-- `s.starts_with(|c| char::is_ascii_digit(&c))` from
`src/validations.rs`. -/
def startsWithDigit : Str → Bool
  | [] => false
  | c :: _ => c.isDigit

/-- The character predicate of `validate_with_revision`
(`src/validations.rs:23-25`): ASCII alphanumeric or one of
`.` `+` `-` `:` `~`. -/
def withRevisionChar (c : Char) : Bool :=
  c.isAlphanum || ['.', '+', '-', ':', '~'].any (fun valid => valid = c)

/-- `only_valid_chars` (`src/validations.rs:73-76`): ASCII alphanumeric
or one of `+` `.` `~` `:` (no dash). -/
def only_valid_chars (s : Str) : Bool :=
  s.all (fun c => c.isAlphanum || c = '+' || c = '.' || c = '~' || c = ':')

/-- `ValidateUpstreamVersion::validate_with_revision`
(`src/validations.rs:12-31`). -/
def validate_with_revision (s : Str) : Except DebianVersionError Bool :=
  if s = [] then .error .EmptyUpstream
  else if !startsWithDigit s then .error .UpstreamStartWithDigit
  else if s.all withRevisionChar then .ok true
  else .error .UpstreamInvalidCharacters

/-- `ValidateUpstreamVersion::validate_without_revision`
(`src/validations.rs:33-49`). -/
def validate_without_revision (s : Str) : Except DebianVersionError Bool :=
  if s = [] then .error .EmptyUpstream
  else if !startsWithDigit s then .error .UpstreamStartWithDigit
  else if only_valid_chars s then .ok true
  else .error .UpstreamInvalidCharacters

/-- `ValidateDebianRevision::validate` (`src/validations.rs:52-71`); note
that the parser (`FromStr for DebianVersion`) never calls it. -/
def validateRevision (s : Str) : Except DebianVersionError Bool :=
  if s = [] then .error .EmptyRevision
  else if !only_valid_chars s then .error .RevisionInvalidCharacters
  else .ok true

/-- `FromStr for DebianVersion` (`src/lib.rs:200-264`).  The final
`Ok(Self { epoch, upstream_version: value, debian_revision: None })` at
lines 258-262 is the fall-through reached only when a validator returns
`Ok(false)`; it is kept to mirror the source exactly (the validators in
fact never return `Ok(false)`). -/
def from_str (value : Str) : Except DebianVersionError DebianVersion :=
  if value = [] then .error .Empty
  else
    match splitOnce ':' value with
    | some (first, rest) =>
      match parseUsize first with
      | none => .error .InvalidEpoch
      | some inner =>
        match rsplitOnce '-' rest with
        | some (upstream_version, debian_revision) =>
          match validate_with_revision upstream_version with
          | .error e => .error e
          | .ok true => .ok ⟨some inner, upstream_version, some debian_revision⟩
          | .ok false => .ok ⟨some inner, value, none⟩
        | none =>
          match validate_without_revision rest with
          | .error e => .error e
          | .ok true => .ok ⟨some inner, rest, none⟩
          | .ok false => .ok ⟨some inner, value, none⟩
    | none =>
      match rsplitOnce '-' value with
      | some (upstream_version, debian_revision) =>
        match validate_with_revision upstream_version with
        | .error e => .error e
        | .ok true => .ok ⟨none, upstream_version, some debian_revision⟩
        | .ok false => .ok ⟨none, value, none⟩
      | none =>
        match validate_without_revision value with
        | .error e => .error e
        | .ok true => .ok ⟨none, value, none⟩
        | .ok false => .ok ⟨none, value, none⟩

/-- The decimal rendering of a `usize` by Rust's `Display`, with
explicit fuel (`n / 10` strictly decreases, so `n + 1` steps always
suffice). -/
def natDigitsAux : Nat → Nat → Str
  | 0, _ => []
  | fuel + 1, n =>
    if n < 10 then [Char.ofNat (48 + n)]
    else natDigitsAux fuel (n / 10) ++ [Char.ofNat (48 + n % 10)]

/-- The decimal rendering of a `usize` by Rust's `Display` (most
significant digit first, no sign, no leading zeros except for `0`). -/
def natDigits (n : Nat) : Str := natDigitsAux (n + 1) n

/-- `Display for DebianVersion` (`src/lib.rs:143-163`):
`[epoch:]upstream_version[-debian_revision]`. -/
def to_string (v : DebianVersion) : Str :=
  match v.epoch with
  | some e =>
    match v.debian_revision with
    | some revision => natDigits e ++ ':' :: (v.upstream_version ++ '-' :: revision)
    | none => natDigits e ++ ':' :: v.upstream_version
  | none =>
    match v.debian_revision with
    | some revision => v.upstream_version ++ '-' :: revision
    | none => v.upstream_version

/-- `DebianVersion::map_debian_revision_with` (`src/lib.rs:128-140`):
apply `f` to the revision if present (`as_mut().map(f)`), then re-own the
result (`map(to_owned)`, the identity on the value). -/
def map_debian_revision_with (v : DebianVersion) (f : Str → Str) : DebianVersion :=
  { v with debian_revision := (v.debian_revision.map f).map id }

instance {ε α : Type} [DecidableEq ε] [DecidableEq α] : DecidableEq (Except ε α) := fun x y =>
  match x, y with
  | .error a, .error b =>
    if h : a = b then .isTrue (by rw [h]) else .isFalse (fun hc => by cases hc; exact h rfl)
  | .error _, .ok _ => .isFalse (fun hc => by cases hc)
  | .ok _, .error _ => .isFalse (fun hc => by cases hc)
  | .ok a, .ok b =>
    if h : a = b then .isTrue (by rw [h]) else .isFalse (fun hc => by cases hc; exact h rfl)

/-- The remainder of step 2 of the parse algorithm: the part of the input
after the first `':'` when one exists, the whole input otherwise. -/
def remainder (value : Str) : Str :=
  match splitOnce ':' value with
  | some p => p.2
  | none => value

/-! ### Lemmas about splitting -/

theorem splitOnce_eq_some {c : Char} {s l r : Str}
    (h : splitOnce c s = some (l, r)) : s = l ++ c :: r ∧ c ∉ l := by
  induction s generalizing l with
  | nil => simp [splitOnce] at h
  | cons x xs ih =>
    by_cases hx : x = c
    · simp [splitOnce, hx] at h
      obtain ⟨hl, hr⟩ := h
      subst hl; subst hr; subst hx
      simp
    · simp only [splitOnce, if_neg hx, Option.map_eq_some'] at h
      obtain ⟨⟨l', r'⟩, hp, heq⟩ := h
      injection heq with hl hr
      subst hr
      obtain ⟨hs, hnot⟩ := ih hp
      constructor
      · rw [← hl, hs]; rfl
      · rw [← hl]
        intro hmem
        rcases List.mem_cons.mp hmem with h1 | h1
        · exact hx h1.symm
        · exact hnot h1

theorem splitOnce_append {c : Char} {l r : Str} (h : c ∉ l) :
    splitOnce c (l ++ c :: r) = some (l, r) := by
  induction l with
  | nil => simp [splitOnce]
  | cons x xs ih =>
    have hx : x ≠ c := fun hc => h (hc ▸ List.mem_cons_self x xs)
    have hxs : c ∉ xs := fun hc => h (List.mem_cons_of_mem x hc)
    simp [splitOnce, hx, ih hxs]

theorem splitOnce_eq_none {c : Char} {s : Str} :
    splitOnce c s = none ↔ c ∉ s := by
  induction s with
  | nil => simp [splitOnce]
  | cons x xs ih =>
    by_cases hx : x = c
    · simp [splitOnce, hx]
    · simp only [splitOnce, if_neg hx, Option.map_eq_none', ih, List.mem_cons]
      constructor
      · intro h hm
        rcases hm with h1 | h1
        · exact hx h1.symm
        · exact h h1
      · intro h hm
        exact h (Or.inr hm)

theorem rsplitOnce_eq_some {c : Char} {s l r : Str}
    (h : rsplitOnce c s = some (l, r)) : s = l ++ c :: r ∧ c ∉ r := by
  unfold rsplitOnce at h
  rcases hs : splitOnce c s.reverse with _ | ⟨a, b⟩
  · rw [hs] at h; cases h
  · rw [hs] at h
    simp only [Option.some.injEq, Prod.mk.injEq] at h
    obtain ⟨hl, hr⟩ := h
    obtain ⟨hrev, hnot⟩ := splitOnce_eq_some hs
    have : s = b.reverse ++ c :: a.reverse := by
      have := congrArg List.reverse hrev
      simpa [List.reverse_append] using this
    subst hl; subst hr
    refine ⟨this, fun hm => hnot ?_⟩
    simpa using hm

theorem rsplitOnce_append {c : Char} {l r : Str} (h : c ∉ r) :
    rsplitOnce c (l ++ c :: r) = some (l, r) := by
  have hrev : (l ++ c :: r).reverse = r.reverse ++ c :: l.reverse := by
    simp [List.reverse_append]
  have hnot : c ∉ r.reverse := by simpa using h
  unfold rsplitOnce
  rw [hrev, splitOnce_append hnot]
  simp

theorem rsplitOnce_eq_none {c : Char} {s : Str} :
    rsplitOnce c s = none ↔ c ∉ s := by
  unfold rsplitOnce
  rcases hs : splitOnce c s.reverse with _ | ⟨a, b⟩
  · have : c ∉ s.reverse := splitOnce_eq_none.mp hs
    simpa using this
  · simp only []
    have := splitOnce_eq_some hs
    constructor
    · intro hcon; cases hcon
    · intro hmem
      exfalso
      apply hmem
      have : c ∈ s.reverse := by rw [this.1]; simp
      simpa using this

/-! ### Lemmas about the validators -/

theorem validate_with_revision_ok {s : Str} {b : Bool}
    (h : validate_with_revision s = .ok b) :
    b = true ∧ s ≠ [] ∧ startsWithDigit s = true ∧ s.all withRevisionChar = true := by
  unfold validate_with_revision at h
  split_ifs at h with h1 h2 h3
  · injection h with hb
    exact ⟨hb.symm, h1, by simpa using h2, h3⟩

theorem validate_without_revision_ok {s : Str} {b : Bool}
    (h : validate_without_revision s = .ok b) :
    b = true ∧ s ≠ [] ∧ startsWithDigit s = true ∧ only_valid_chars s = true := by
  unfold validate_without_revision at h
  split_ifs at h with h1 h2 h3
  · injection h with hb
    exact ⟨hb.symm, h1, by simpa using h2, h3⟩

theorem validate_with_revision_eq_ok {s : Str} (h1 : s ≠ [])
    (h2 : startsWithDigit s = true) (h3 : s.all withRevisionChar = true) :
    validate_with_revision s = .ok true := by
  unfold validate_with_revision
  rw [if_neg h1, if_neg (by simp [h2]), if_pos h3]

theorem validate_without_revision_eq_ok {s : Str} (h1 : s ≠ [])
    (h2 : startsWithDigit s = true) (h3 : only_valid_chars s = true) :
    validate_without_revision s = .ok true := by
  unfold validate_without_revision
  rw [if_neg h1, if_neg (by simp [h2]), if_pos h3]

theorem validate_with_revision_nondigit {s : Str} (h1 : s ≠ [])
    (h2 : startsWithDigit s = false) :
    validate_with_revision s = .error .UpstreamStartWithDigit := by
  unfold validate_with_revision
  rw [if_neg h1, if_pos (by simp [h2])]

theorem validate_without_revision_nondigit {s : Str} (h1 : s ≠ [])
    (h2 : startsWithDigit s = false) :
    validate_without_revision s = .error .UpstreamStartWithDigit := by
  unfold validate_without_revision
  rw [if_neg h1, if_pos (by simp [h2])]

theorem validate_with_revision_charset {s : Str} (h1 : s ≠ [])
    (h2 : startsWithDigit s = true) :
    validate_with_revision s =
      if s.all withRevisionChar then .ok true else .error .UpstreamInvalidCharacters := by
  unfold validate_with_revision
  rw [if_neg h1, if_neg (by simp [h2])]

theorem validate_without_revision_charset {s : Str} (h1 : s ≠ [])
    (h2 : startsWithDigit s = true) :
    validate_without_revision s =
      if only_valid_chars s then .ok true else .error .UpstreamInvalidCharacters := by
  unfold validate_without_revision
  rw [if_neg h1, if_neg (by simp [h2])]

/-! ### Lemmas about `parseUsize` -/

theorem parseUsize_eq_some {s : Str} {e : Nat} :
    parseUsize s = some e ↔
      stripPlus s ≠ [] ∧ (stripPlus s).all Char.isDigit = true ∧
        readNat (stripPlus s) ≤ USIZE_MAX ∧ e = readNat (stripPlus s) := by
  unfold parseUsize
  split_ifs with h1 h2 h3 <;> simp_all
  omega

theorem parseUsize_le_max {s : Str} {e : Nat} (h : parseUsize s = some e) :
    e ≤ USIZE_MAX := by
  obtain ⟨-, -, hmax, he⟩ := parseUsize_eq_some.mp h
  omega

theorem stripPlus_of_not_plus {c : Char} {cs : Str} (h : c ≠ '+') :
    stripPlus (c :: cs) = c :: cs := by
  simp only [stripPlus]
  rw [if_neg h]

theorem stripPlus_of_digits {s : Str} (hne : s ≠ [])
    (hd : s.all Char.isDigit = true) : stripPlus s = s := by
  rcases s with _ | ⟨c, cs⟩
  · exact absurd rfl hne
  · have hc : c.isDigit = true := by
      have := List.all_eq_true.mp hd c (List.mem_cons_self c cs)
      simpa using this
    refine stripPlus_of_not_plus ?_
    intro hcp
    subst hcp
    simp at hc

theorem parseUsize_all_digits {s : Str} (hne : s ≠ [])
    (hd : s.all Char.isDigit = true) (hmax : readNat s ≤ USIZE_MAX) :
    parseUsize s = some (readNat s) := by
  have hplus := stripPlus_of_digits hne hd
  rw [parseUsize_eq_some.mpr (by rw [hplus]; exact ⟨hne, hd, hmax, rfl⟩)]

theorem parseUsize_overflow {s : Str} (hd : s.all Char.isDigit = true)
    (hmax : USIZE_MAX < readNat s) : parseUsize s = none := by
  have hne : s ≠ [] := by
    intro hnil
    subst hnil
    simp [readNat, USIZE_MAX] at hmax
  have hplus := stripPlus_of_digits hne hd
  unfold parseUsize
  rw [hplus, if_neg hne, if_pos hd, if_neg (by omega)]

/-! ### Lemmas about decimal rendering -/

theorem char_ofNat_digit {n : Nat} (h : n < 10) :
    (Char.ofNat (48 + n)).isDigit = true ∧ (Char.ofNat (48 + n)).toNat = 48 + n := by
  interval_cases n <;> exact ⟨by decide, by decide⟩

theorem natDigitsAux_congr (n : Nat) : ∀ f1 f2, n < f1 → n < f2 →
    natDigitsAux f1 n = natDigitsAux f2 n := by
  induction n using Nat.strong_induction_on with
  | _ n ih =>
    intro f1 f2 h1 h2
    obtain ⟨k1, rfl⟩ : ∃ k, f1 = k + 1 := ⟨f1 - 1, by omega⟩
    obtain ⟨k2, rfl⟩ : ∃ k, f2 = k + 1 := ⟨f2 - 1, by omega⟩
    simp only [natDigitsAux]
    by_cases h10 : n < 10
    · simp [h10]
    · rw [if_neg h10, if_neg h10]
      have hdiv : n / 10 < n := Nat.div_lt_self (by omega) (by omega)
      rw [ih (n / 10) hdiv k1 k2 (by omega) (by omega)]

theorem natDigits_lt10 {n : Nat} (h : n < 10) :
    natDigits n = [Char.ofNat (48 + n)] := by
  unfold natDigits
  simp only [natDigitsAux]
  rw [if_pos h]

theorem natDigits_step {n : Nat} (h : ¬ n < 10) :
    natDigits n = natDigits (n / 10) ++ [Char.ofNat (48 + n % 10)] := by
  have hdiv : n / 10 < n := Nat.div_lt_self (by omega) (by omega)
  unfold natDigits
  conv_lhs => simp only [natDigitsAux]
  rw [if_neg h, natDigitsAux_congr (n / 10) n (n / 10 + 1) hdiv (by omega)]

theorem natDigits_all_digit (n : Nat) : ∀ c ∈ natDigits n, c.isDigit = true := by
  induction n using Nat.strong_induction_on with
  | _ n ih =>
    by_cases h10 : n < 10
    · rw [natDigits_lt10 h10]
      intro c hc
      simp at hc
      subst hc
      exact (char_ofNat_digit h10).1
    · rw [natDigits_step h10]
      intro c hc
      rcases List.mem_append.mp hc with h1 | h1
      · exact ih (n / 10) (Nat.div_lt_self (by omega) (by omega)) c h1
      · simp at h1
        subst h1
        exact (char_ofNat_digit (Nat.mod_lt n (by omega))).1

theorem natDigits_ne_nil (n : Nat) : natDigits n ≠ [] := by
  by_cases h10 : n < 10
  · rw [natDigits_lt10 h10]
    simp
  · rw [natDigits_step h10]
    simp

theorem readNat_append_singleton (s : Str) (c : Char) :
    readNat (s ++ [c]) = readNat s * 10 + (c.toNat - 48) := by
  unfold readNat
  rw [List.foldl_append]
  rfl

theorem readNat_natDigits (n : Nat) : readNat (natDigits n) = n := by
  induction n using Nat.strong_induction_on with
  | _ n ih =>
    by_cases h10 : n < 10
    · rw [natDigits_lt10 h10]
      have := (char_ofNat_digit h10).2
      unfold readNat
      simp only [List.foldl_cons, List.foldl_nil]
      omega
    · rw [natDigits_step h10, readNat_append_singleton,
        ih (n / 10) (Nat.div_lt_self (by omega) (by omega))]
      have := (char_ofNat_digit (Nat.mod_lt n (by omega))).2
      omega

theorem digit_not_special {c : Char} (h : c.isDigit = true) :
    c ≠ '+' ∧ c ≠ ':' ∧ c ≠ '-' := by
  refine ⟨?_, ?_, ?_⟩ <;> intro hc <;> subst hc <;> simp at h

theorem parseUsize_natDigits {n : Nat} (h : n ≤ USIZE_MAX) :
    parseUsize (natDigits n) = some n := by
  have hall : (natDigits n).all Char.isDigit = true :=
    List.all_eq_true.mpr (fun c hc => by simpa using natDigits_all_digit n c hc)
  rw [parseUsize_all_digits (natDigits_ne_nil n) hall (by rw [readNat_natDigits]; exact h),
    readNat_natDigits]

theorem natDigits_no_colon {n : Nat} : ':' ∉ natDigits n := by
  intro hmem
  exact (digit_not_special (natDigits_all_digit n ':' hmem)).2.1 rfl

/-! ### Inversion of the parser -/

/-- Every successful parse comes from one of the four reachable `Ok`
construction sites of `FromStr for DebianVersion`; the fall-through at
`src/lib.rs:258` is unreachable because the upstream validators never
return `Ok(false)`. -/
theorem from_str_ok {value : Str} {v : DebianVersion} (h : from_str value = .ok v) :
    (∃ first rest e, splitOnce ':' value = some (first, rest) ∧ parseUsize first = some e ∧
      ((∃ up rev, rsplitOnce '-' rest = some (up, rev) ∧ validate_with_revision up = .ok true ∧
          v = ⟨some e, up, some rev⟩) ∨
       (rsplitOnce '-' rest = none ∧ validate_without_revision rest = .ok true ∧
          v = ⟨some e, rest, none⟩))) ∨
    (splitOnce ':' value = none ∧
      ((∃ up rev, rsplitOnce '-' value = some (up, rev) ∧ validate_with_revision up = .ok true ∧
          v = ⟨none, up, some rev⟩) ∨
       (rsplitOnce '-' value = none ∧ validate_without_revision value = .ok true ∧
          v = ⟨none, value, none⟩))) := by
  unfold from_str at h
  split at h
  · exact absurd h (by simp)
  split at h
  case _ first rest hsplit =>
    split at h
    case _ hparse => exact absurd h (by simp)
    case _ inner hparse =>
      split at h
      case _ up rev hrsplit =>
        split at h
        case _ e hval => exact absurd h (by simp)
        case _ hval =>
          injection h with hv
          exact Or.inl ⟨first, rest, inner, hsplit, hparse,
            Or.inl ⟨up, rev, hrsplit, hval, hv.symm⟩⟩
        case _ hval =>
          exact absurd (validate_with_revision_ok hval).1 (by simp)
      case _ hrsplit =>
        split at h
        case _ e hval => exact absurd h (by simp)
        case _ hval =>
          injection h with hv
          exact Or.inl ⟨first, rest, inner, hsplit, hparse,
            Or.inr ⟨hrsplit, hval, hv.symm⟩⟩
        case _ hval =>
          exact absurd (validate_without_revision_ok hval).1 (by simp)
  case _ hsplit =>
    split at h
    case _ up rev hrsplit =>
      split at h
      case _ e hval => exact absurd h (by simp)
      case _ hval =>
        injection h with hv
        exact Or.inr ⟨hsplit, Or.inl ⟨up, rev, hrsplit, hval, hv.symm⟩⟩
      case _ hval =>
        exact absurd (validate_with_revision_ok hval).1 (by simp)
    case _ hrsplit =>
      split at h
      case _ e hval => exact absurd h (by simp)
      case _ hval =>
        injection h with hv
        exact Or.inr ⟨hsplit, Or.inr ⟨hrsplit, hval, hv.symm⟩⟩
      case _ hval =>
        exact absurd (validate_without_revision_ok hval).1 (by simp)

/-! ### Forward execution lemmas for the parser -/

theorem from_str_invalid_epoch {first rest : Str}
    (hp : parseUsize first = none) (hc : ':' ∉ first) :
    from_str (first ++ ':' :: rest) = .error .InvalidEpoch := by
  have hne : first ++ ':' :: rest ≠ [] := by simp
  have hsplit : splitOnce ':' (first ++ ':' :: rest) = some (first, rest) :=
    splitOnce_append hc
  unfold from_str
  rw [if_neg hne]
  simp only [hsplit, hp]

theorem from_str_empty_remainder {first : Str} {e : Nat}
    (hp : parseUsize first = some e) (hc : ':' ∉ first) :
    from_str (first ++ [':']) = .error .EmptyUpstream := by
  have hne : first ++ [':'] ≠ [] := by simp
  have hsplit : splitOnce ':' (first ++ ':' :: ([] : Str)) = some (first, []) :=
    splitOnce_append hc
  unfold from_str
  rw [if_neg hne]
  simp only [hsplit, hp]
  rfl

theorem from_str_rev_accepts {up rev : Str}
    (hval : validate_with_revision up = .ok true)
    (hc1 : ':' ∉ up) (hc2 : ':' ∉ rev) (hd : '-' ∉ rev) :
    from_str (up ++ '-' :: rev) = .ok ⟨none, up, some rev⟩ := by
  have hne : up ++ '-' :: rev ≠ [] := by simp
  have hcolon : ':' ∉ up ++ '-' :: rev := by
    intro hmem
    rcases List.mem_append.mp hmem with h1 | h1
    · exact hc1 h1
    · rcases List.mem_cons.mp h1 with h2 | h2
      · exact absurd h2 (by decide)
      · exact hc2 h2
  have hsplit : splitOnce ':' (up ++ '-' :: rev) = none := splitOnce_eq_none.mpr hcolon
  have hrsplit : rsplitOnce '-' (up ++ '-' :: rev) = some (up, rev) := rsplitOnce_append hd
  unfold from_str
  rw [if_neg hne]
  simp only [hsplit, hrsplit, hval]

/-! ### Claim C1 -/

/-- C1: for every accepted input whose remainder (the part after the
first `':'`, or the whole input when there is none) contains a `'-'`,
the upstream version is the part of the remainder before its LAST `'-'`
(witnessed by the returned revision containing no `'-'`) and the
revision is the part after it; and concretely
`parse "5.10.104-tegra-35.2.1-20230124153320"` succeeds with no epoch,
upstream `"5.10.104-tegra-35.2.1"` and revision `"20230124153320"`. -/
theorem C1_rightmost_dash_split :
    (∀ value v, from_str value = .ok v → '-' ∈ remainder value →
      ∃ up rev, remainder value = up ++ '-' :: rev ∧ '-' ∉ rev ∧
        v.upstream_version = up ∧ v.debian_revision = some rev) ∧
    from_str "5.10.104-tegra-35.2.1-20230124153320".data =
      .ok ⟨none, "5.10.104-tegra-35.2.1".data, some "20230124153320".data⟩ := by
  constructor
  · intro value v h hdash
    rcases from_str_ok h with ⟨first, rest, e, hsplit, hp, hcase⟩ | ⟨hsplit, hcase⟩
    · have hrem : remainder value = rest := by simp [remainder, hsplit]
      rcases hcase with ⟨up, rev, hrsplit, hval, hv⟩ | ⟨hrsplit, hval, hv⟩
      · obtain ⟨hrest, hnot⟩ := rsplitOnce_eq_some hrsplit
        subst hv
        exact ⟨up, rev, by rw [hrem, hrest], hnot, rfl, rfl⟩
      · rw [hrem] at hdash
        exact absurd hdash (rsplitOnce_eq_none.mp hrsplit)
    · have hrem : remainder value = value := by simp [remainder, hsplit]
      rcases hcase with ⟨up, rev, hrsplit, hval, hv⟩ | ⟨hrsplit, hval, hv⟩
      · obtain ⟨hrest, hnot⟩ := rsplitOnce_eq_some hrsplit
        subst hv
        exact ⟨up, rev, by rw [hrem, hrest], hnot, rfl, rfl⟩
      · rw [hrem] at hdash
        exact absurd hdash (rsplitOnce_eq_none.mp hrsplit)
  · decide

/-- Witness for C1 at the concrete test-suite input. -/
theorem C1_rightmost_dash_split_witness :
    ∃ up rev, remainder "5.10.104-tegra-35.2.1-20230124153320".data = up ++ '-' :: rev ∧
      '-' ∉ rev ∧
      (DebianVersion.mk none "5.10.104-tegra-35.2.1".data
        (some "20230124153320".data)).upstream_version = up ∧
      (DebianVersion.mk none "5.10.104-tegra-35.2.1".data
        (some "20230124153320".data)).debian_revision = some rev :=
  C1_rightmost_dash_split.1 _ _ (by decide) (by decide)

/-! ### Claim C2 -/

/-- C2 counterexample: `parse "5:"` is rejected with `EmptyUpstream`
(the empty remainder reaches `validate_without_revision`, whose
emptiness check fires), not with `Empty` as the claim states. -/
theorem C2_counterexample :
    from_str "5:".data = .error .EmptyUpstream ∧
    (Except.error .EmptyUpstream : Except DebianVersionError DebianVersion) ≠
      .error .Empty :=
  ⟨by decide, by decide⟩

/-- C2 (amended): for every input whose epoch candidate parses and whose
substring after the first `':'` is empty, the parser rejects the input
with `EmptyUpstream`, raised by the upstream validator after the
(vacuous) revision-split attempt — not with `Empty` before splitting. -/
theorem C2_amended {first : Str} {e : Nat}
    (hp : parseUsize first = some e) (hc : ':' ∉ first) :
    from_str (first ++ [':']) = .error .EmptyUpstream :=
  from_str_empty_remainder hp hc

/-- Witness for the amended C2 at `"5:"`. -/
theorem C2_amended_witness : from_str ("5".data ++ [':']) = .error .EmptyUpstream :=
  C2_amended (e := 5) (by decide) (by decide)

/-! ### Claim C3 -/

/-- C3 counterexample: `parse "1-"` has an empty revision candidate but
succeeds with `debian_revision = Some("")` — the parser never invokes
the revision validator, so no `EmptyRevision` error is produced. -/
theorem C3_counterexample :
    from_str "1-".data = .ok ⟨none, "1".data, some []⟩ := by decide

/-- C3 (amended): the parser performs no validation of the revision
candidate: whenever the upstream candidate validates, the substring
after the last `'-'` is accepted verbatim (the hypotheses on `rev` are
purely structural: a `':'` anywhere would select the epoch branch and a
`'-'` in `rev` would move the split point).  The claim's errors belong
to the standalone `ValidateDebianRevision::validate`, which the parser
never calls: it returns `EmptyRevision` on the empty string and
`RevisionInvalidCharacters` on a disallowed character. -/
theorem C3_amended :
    (∀ up rev : Str, validate_with_revision up = .ok true →
      ':' ∉ up → ':' ∉ rev → '-' ∉ rev →
      from_str (up ++ '-' :: rev) = .ok ⟨none, up, some rev⟩) ∧
    validateRevision [] = .error .EmptyRevision ∧
    (∀ s : Str, s ≠ [] → only_valid_chars s = false →
      validateRevision s = .error .RevisionInvalidCharacters) := by
  refine ⟨fun up rev hval h1 h2 h3 => from_str_rev_accepts hval h1 h2 h3, rfl, ?_⟩
  intro s h1 h2
  unfold validateRevision
  rw [if_neg h1, if_pos (by simp [h2])]

/-- Witness for the amended C3: `"1-!"` parses although `'!'` is outside
the revision character set. -/
theorem C3_amended_witness :
    from_str ("1".data ++ '-' :: "!".data) = .ok ⟨none, "1".data, some "!".data⟩ :=
  C3_amended.1 _ _ (by decide) (by decide) (by decide) (by decide)

/-! ### Claim C4 -/

/-- C4 counterexample: `parse "+5:1.0"` succeeds with epoch `Some(5)`
although the epoch candidate `"+5"` contains the non-digit `'+'` — Rust's
`usize` parsing accepts one leading `'+'` sign. -/
theorem C4_counterexample :
    from_str "+5:1.0".data = .ok ⟨some 5, "1.0".data, none⟩ := by decide

/-- C4 (amended): the epoch candidate (before the first `':'`) is
accepted exactly when, after stripping at most one leading `'+'`, it is
non-empty, entirely ASCII digits, and its value fits in `usize`; it is
then parsed as that non-negative integer, and otherwise the parser
returns `InvalidEpoch`. -/
theorem C4_amended (first rest : Str) (hc : ':' ∉ first) :
    (parseUsize first = none → from_str (first ++ ':' :: rest) = .error .InvalidEpoch) ∧
    (∀ e, parseUsize first = some e → ∀ v, from_str (first ++ ':' :: rest) = .ok v →
      v.epoch = some e) ∧
    (∀ e, parseUsize first = some e ↔
      (stripPlus first ≠ [] ∧ (stripPlus first).all Char.isDigit = true ∧
       readNat (stripPlus first) ≤ USIZE_MAX ∧ e = readNat (stripPlus first))) := by
  refine ⟨fun hp => from_str_invalid_epoch hp hc, ?_, fun e => parseUsize_eq_some⟩
  intro e hp v hok
  have hsplit : splitOnce ':' (first ++ ':' :: rest) = some (first, rest) :=
    splitOnce_append hc
  rcases from_str_ok hok with ⟨first', rest', e', hsplit', hp', hcase⟩ | ⟨hsplit', -⟩
  · rw [hsplit] at hsplit'
    injection hsplit' with hpair
    injection hpair with h1 h2
    subst h1
    subst h2
    rw [hp] at hp'
    injection hp' with he
    subst he
    rcases hcase with ⟨up, rev, -, -, hv⟩ | ⟨-, -, hv⟩ <;> subst hv <;> rfl
  · rw [hsplit] at hsplit'
    exact absurd hsplit' (by simp)

/-- Witness for the amended C4 at `"a:1"` (non-numeric epoch). -/
theorem C4_amended_witness :
    from_str ("a".data ++ ':' :: "1".data) = .error .InvalidEpoch :=
  (C4_amended "a".data "1".data (by decide)).1 (by decide)

/-! ### Claim C5 -/

/-- C5: once a candidate passes the earlier checks (non-empty, leading
ASCII digit — the validators test those first, per the spec's error
precedence), the upstream character set decides the outcome: with a
revision segment every character must be ASCII alphanumeric or one of
`. + - : ~`, without one the same set minus `'-'` applies (second
conjunct), and a violation yields `UpstreamInvalidCharacters`.  The last
conjunct shows no `Version` escapes the rule: every parsed upstream
satisfies the character set matching its revision presence. -/
theorem C5_upstream_charset :
    (∀ s : Str, s ≠ [] → startsWithDigit s = true →
      validate_with_revision s =
        (if s.all withRevisionChar then .ok true else .error .UpstreamInvalidCharacters) ∧
      validate_without_revision s =
        (if only_valid_chars s then .ok true else .error .UpstreamInvalidCharacters)) ∧
    (∀ c : Char, (c.isAlphanum || c = '+' || c = '.' || c = '~' || c = ':') = true ↔
      (withRevisionChar c = true ∧ c ≠ '-')) ∧
    (∀ value v, from_str value = .ok v →
      (∀ rev, v.debian_revision = some rev → v.upstream_version.all withRevisionChar = true) ∧
      (v.debian_revision = none → only_valid_chars v.upstream_version = true)) := by
  refine ⟨fun s h1 h2 =>
      ⟨validate_with_revision_charset h1 h2, validate_without_revision_charset h1 h2⟩,
    ?_, ?_⟩
  · intro c
    simp only [withRevisionChar, List.any_cons, List.any_nil, Bool.or_false, Bool.or_eq_true,
      decide_eq_true_eq]
    constructor
    · rintro ((((h | h) | h) | h) | h)
      · refine ⟨Or.inl h, ?_⟩
        intro hc
        subst hc
        simp at h
      · subst h
        exact ⟨by simp, by decide⟩
      · subst h
        exact ⟨by simp, by decide⟩
      · subst h
        exact ⟨by simp, by decide⟩
      · subst h
        exact ⟨by simp, by decide⟩
    · rintro ⟨h | (h | h | h | h | h), hne⟩
      · exact Or.inl (Or.inl (Or.inl (Or.inl h)))
      · exact Or.inl (Or.inl (Or.inr h.symm))
      · exact Or.inl (Or.inl (Or.inl (Or.inr h.symm)))
      · exact absurd h.symm hne
      · exact Or.inr h.symm
      · exact Or.inl (Or.inr h.symm)
  · intro value v h
    rcases from_str_ok h with ⟨f, r, e, -, -, hcase⟩ | ⟨-, hcase⟩ <;>
      rcases hcase with ⟨up, rev, -, hval, hv⟩ | ⟨-, hval, hv⟩ <;> subst hv
    · exact ⟨fun rev2 _ => (validate_with_revision_ok hval).2.2.2, fun hn => nomatch hn⟩
    · exact ⟨fun rev2 hh => (nomatch hh), fun _ => (validate_without_revision_ok hval).2.2.2⟩
    · exact ⟨fun rev2 _ => (validate_with_revision_ok hval).2.2.2, fun hn => nomatch hn⟩
    · exact ⟨fun rev2 hh => (nomatch hh), fun _ => (validate_without_revision_ok hval).2.2.2⟩

/-- Witness for C5 at `"1a-"`: legal with a revision segment, illegal
without one (the dash). -/
theorem C5_upstream_charset_witness :
    validate_with_revision "1a-".data =
      (if "1a-".data.all withRevisionChar then .ok true else .error .UpstreamInvalidCharacters) ∧
    validate_without_revision "1a-".data =
      (if only_valid_chars "1a-".data then .ok true else .error .UpstreamInvalidCharacters) :=
  C5_upstream_charset.1 "1a-".data (by decide) (by decide)

/-! ### Claim C6 -/

/-- C6: every successful parse yields a non-empty upstream version whose
first character is an ASCII digit; conversely a non-empty candidate not
starting with a digit makes either upstream validator (and hence the
parser, which calls one of them on the candidate) fail with
`UpstreamStartWithDigit` (the source's name for the spec's
`UpstreamStartsWithNonDigit`); in particular `parse "---"` fails with
that error. -/
theorem C6_upstream_leading_digit :
    (∀ value v, from_str value = .ok v →
      v.upstream_version ≠ [] ∧ startsWithDigit v.upstream_version = true) ∧
    (∀ s : Str, s ≠ [] → startsWithDigit s = false →
      validate_with_revision s = .error .UpstreamStartWithDigit ∧
      validate_without_revision s = .error .UpstreamStartWithDigit) ∧
    from_str "---".data = .error .UpstreamStartWithDigit := by
  refine ⟨?_, fun s h1 h2 =>
      ⟨validate_with_revision_nondigit h1 h2, validate_without_revision_nondigit h1 h2⟩,
    by decide⟩
  intro value v h
  rcases from_str_ok h with ⟨f, r, e, -, -, hcase⟩ | ⟨-, hcase⟩ <;>
    rcases hcase with ⟨up, rev, -, hval, hv⟩ | ⟨-, hval, hv⟩ <;> subst hv
  · exact ⟨(validate_with_revision_ok hval).2.1, (validate_with_revision_ok hval).2.2.1⟩
  · exact ⟨(validate_without_revision_ok hval).2.1, (validate_without_revision_ok hval).2.2.1⟩
  · exact ⟨(validate_with_revision_ok hval).2.1, (validate_with_revision_ok hval).2.2.1⟩
  · exact ⟨(validate_without_revision_ok hval).2.1, (validate_without_revision_ok hval).2.2.1⟩

/-- Witness for C6 at `"5.10.104-tegra-35.2.1-20230124153320"`. -/
theorem C6_upstream_leading_digit_witness :
    (DebianVersion.mk none "5.10.104-tegra-35.2.1".data
        (some "20230124153320".data)).upstream_version ≠ [] ∧
    startsWithDigit (DebianVersion.mk none "5.10.104-tegra-35.2.1".data
        (some "20230124153320".data)).upstream_version = true :=
  C6_upstream_leading_digit.1 "5.10.104-tegra-35.2.1-20230124153320".data _ (by decide)

/-! ### Claim C9 -/

/-- C9: an epoch candidate that is entirely ASCII digits but denotes a
value above `usize::MAX` (2^64 - 1) is rejected with `InvalidEpoch` —
Rust's `usize` parsing fails with an overflow `ParseIntError`, which the
parser maps to `InvalidEpoch`. -/
theorem C9_epoch_overflow {first rest : Str}
    (hd : first.all Char.isDigit = true) (hover : USIZE_MAX < readNat first) :
    from_str (first ++ ':' :: rest) = .error .InvalidEpoch := by
  have hc : ':' ∉ first := fun hmem =>
    absurd (List.all_eq_true.mp hd ':' hmem) (by decide)
  exact from_str_invalid_epoch (parseUsize_overflow hd hover) hc

/-- Witness for C9 at epoch `2^64 = 18446744073709551616`. -/
theorem C9_epoch_overflow_witness :
    from_str ("18446744073709551616".data ++ ':' :: "1".data) = .error .InvalidEpoch :=
  C9_epoch_overflow (by decide) (by decide)

/-! ### Claim C10 -/

/-- C10: `map_debian_revision_with` changes at most the
`debian_revision` field (the epoch and upstream version are returned
untouched); the new revision is exactly `f` of the old one with no
re-validation, and when the revision is absent it stays absent, the
result not depending on `f` at all. -/
theorem C10_frame (v : DebianVersion) (f : Str → Str) :
    (map_debian_revision_with v f).epoch = v.epoch ∧
    (map_debian_revision_with v f).upstream_version = v.upstream_version ∧
    (map_debian_revision_with v f).debian_revision = v.debian_revision.map f ∧
    (v.debian_revision = none → map_debian_revision_with v f = v ∧
      ∀ g : Str → Str, map_debian_revision_with v f = map_debian_revision_with v g) := by
  refine ⟨rfl, rfl, by simp [map_debian_revision_with], ?_⟩
  intro hnone
  cases v with
  | mk ep up rev =>
    simp only at hnone
    subst hnone
    exact ⟨by simp [map_debian_revision_with], fun g => by simp [map_debian_revision_with]⟩

/-- Witness for C10: mapping over an absent revision is the identity. -/
theorem C10_frame_witness :
    map_debian_revision_with ⟨some 1, "2".data, none⟩ (fun r => '!' :: r) =
      (⟨some 1, "2".data, none⟩ : DebianVersion) :=
  ((C10_frame ⟨some 1, "2".data, none⟩ (fun r => '!' :: r)).2.2.2 rfl).1

/-! ### The comparator

The ordering routine the crate delegates to (`rust_apt::util::cmp_versions`,
`src/lib.rs:64-69`, behind the `cmp` feature) lives in an external crate,
so its algorithm is modelled from the specification (§4.3). -/

/-- Modelled from the spec: the character rank of the modified lexical
order (§4.3): `'~'` sorts below everything (rank `-1`), the end of a
prefix ranks `0`, a letter ranks at its ASCII value, and every other
character ranks 256 above its code point. -/
def charOrder (c : Char) : Int :=
  if c = '~' then -1
  else if c.isAlpha then (c.toNat : Int)
  else (c.toNat : Int) + 256

/-- Modelled from the spec: comparison of two non-digit prefixes under
the modified lexical order; the end of a prefix compares as rank `0`
against the next character of the other prefix. -/
def lexCmp : Str → Str → Ordering
  | [], [] => .eq
  | [], d :: _ => if charOrder d < 0 then .gt else .lt
  | c :: _, [] => if charOrder c < 0 then .lt else .gt
  | c :: cs, d :: ds =>
    if charOrder c < charOrder d then .lt
    else if charOrder d < charOrder c then .gt
    else lexCmp cs ds

/-- Numeric comparison of two natural numbers as an `Ordering`. -/
def natCmp (m n : Nat) : Ordering :=
  if m < n then .lt else if n < m then .gt else .eq

/-- The predicate selecting the non-digit run of a segment. -/
def nonDigit (c : Char) : Bool := !c.isDigit

/-- Modelled from the spec: the two-phase segment loop of §4.3 with
explicit fuel; each round compares the non-digit prefixes lexically
(modified order), then the digit runs numerically (the empty run reads
as 0), then recurses on the rests.  Every round consumes at least one
character from a non-empty side, so fuel `|a| + |b|` always suffices. -/
def verrevcmpFuel : Nat → Str → Str → Ordering
  | 0, _, _ => .eq
  | fuel + 1, a, b =>
    if a = [] ∧ b = [] then .eq
    else
      (lexCmp (a.takeWhile nonDigit) (b.takeWhile nonDigit)).then
        ((natCmp (readNat ((a.dropWhile nonDigit).takeWhile Char.isDigit))
                 (readNat ((b.dropWhile nonDigit).takeWhile Char.isDigit))).then
          (verrevcmpFuel fuel ((a.dropWhile nonDigit).dropWhile Char.isDigit)
                              ((b.dropWhile nonDigit).dropWhile Char.isDigit)))

/-- Modelled from the spec: the segment algorithm of §4.3, applied to
upstream-version and revision strings. -/
def verrevcmp (a b : Str) : Ordering := verrevcmpFuel (a.length + b.length) a b

/-- Modelled from the spec: the top-level comparison of §4.3 — epoch
first (absent = 0, numerically), then the upstream versions and finally
the revisions (absent = empty string) under the segment algorithm. -/
def compare_debian (a b : DebianVersion) : Ordering :=
  (natCmp (a.epoch.getD 0) (b.epoch.getD 0)).then
    ((verrevcmp a.upstream_version b.upstream_version).then
      (verrevcmp (a.debian_revision.getD []) (b.debian_revision.getD [])))

/-- The shape of `PartialOrd for DebianVersion` (`src/lib.rs:64-69`):
always `Some` of a total comparison (there delegated to the external
`cmp_versions` on the rendered strings; here the §4.3 model on the
versions themselves, `to_string` being lossless). -/
def partial_cmp (a b : DebianVersion) : Option Ordering :=
  some (compare_debian a b)

/-! ### Ordering combinator lemmas -/

theorem then_ne_gt {x y : Ordering} :
    x.then y ≠ .gt ↔ (x = .lt ∨ (x = .eq ∧ y ≠ .gt)) := by
  cases x <;> cases y <;> decide

theorem natCmp_lt_iff {m n : Nat} : natCmp m n = .lt ↔ m < n := by
  unfold natCmp
  split_ifs <;> simp <;> omega

theorem natCmp_eq_iff {m n : Nat} : natCmp m n = .eq ↔ m = n := by
  unfold natCmp
  split_ifs <;> simp <;> omega

theorem natCmp_gt_iff {m n : Nat} : natCmp m n = .gt ↔ n < m := by
  unfold natCmp
  split_ifs <;> simp <;> omega

theorem natCmp_swap (m n : Nat) : natCmp m n = (natCmp n m).swap := by
  unfold natCmp
  split_ifs <;> first | rfl | (exfalso; omega)

/-! ### Laws of the modified lexical order -/

theorem char_toNat_inj {c d : Char} (h : c.toNat = d.toNat) : c = d :=
  Char.ext (UInt32.ext h)

theorem isUpper_toNat_bounds {c : Char} (h : c.isUpper = true) :
    65 ≤ c.toNat ∧ c.toNat ≤ 90 := by
  unfold Char.isUpper at h
  simp only [Bool.and_eq_true, decide_eq_true_eq] at h
  exact h

theorem isLower_toNat_bounds {c : Char} (h : c.isLower = true) :
    97 ≤ c.toNat ∧ c.toNat ≤ 122 := by
  unfold Char.isLower at h
  simp only [Bool.and_eq_true, decide_eq_true_eq] at h
  exact h

theorem isAlpha_toNat_bounds {c : Char} (h : c.isAlpha = true) :
    65 ≤ c.toNat ∧ c.toNat ≤ 122 := by
  unfold Char.isAlpha at h
  simp only [Bool.or_eq_true] at h
  rcases h with h | h
  · have := isUpper_toNat_bounds h
    omega
  · have := isLower_toNat_bounds h
    omega

theorem charOrder_inj {c d : Char} (h : charOrder c = charOrder d) : c = d := by
  unfold charOrder at h
  by_cases hc : c = '~' <;> by_cases hd : d = '~'
  · rw [hc, hd]
  · rw [if_pos hc, if_neg hd] at h
    by_cases hda : d.isAlpha
    · rw [if_pos hda] at h
      omega
    · rw [if_neg hda] at h
      omega
  · rw [if_neg hc, if_pos hd] at h
    by_cases hca : c.isAlpha
    · rw [if_pos hca] at h
      omega
    · rw [if_neg hca] at h
      omega
  · rw [if_neg hc, if_neg hd] at h
    by_cases hca : c.isAlpha <;> by_cases hda : d.isAlpha
    · rw [if_pos hca, if_pos hda] at h
      exact char_toNat_inj (by omega)
    · rw [if_pos hca, if_neg hda] at h
      have := isAlpha_toNat_bounds hca
      omega
    · rw [if_neg hca, if_pos hda] at h
      have := isAlpha_toNat_bounds hda
      omega
    · rw [if_neg hca, if_neg hda] at h
      exact char_toNat_inj (by omega)

theorem lexCmp_refl (s : Str) : lexCmp s s = .eq := by
  induction s with
  | nil => rfl
  | cons c cs ih => simp [lexCmp, ih]

theorem lexCmp_eq_iff {s t : Str} : lexCmp s t = .eq ↔ s = t := by
  induction s generalizing t with
  | nil =>
    cases t with
    | nil => simp [lexCmp]
    | cons d ds =>
      simp only [lexCmp]
      split_ifs <;> simp
  | cons c cs ih =>
    cases t with
    | nil =>
      simp only [lexCmp]
      split_ifs <;> simp
    | cons d ds =>
      simp only [lexCmp]
      split_ifs with h1 h2
      · have hne : c ≠ d := fun he => by subst he; omega
        simp [hne]
      · have hne : c ≠ d := fun he => by subst he; omega
        simp [hne]
      · have hcd : c = d := charOrder_inj (by omega)
        subst hcd
        rw [ih]
        simp

theorem lexCmp_swap (s t : Str) : lexCmp s t = (lexCmp t s).swap := by
  induction s generalizing t with
  | nil =>
    cases t with
    | nil => rfl
    | cons d ds =>
      simp only [lexCmp]
      split_ifs <;> rfl
  | cons c cs ih =>
    cases t with
    | nil =>
      simp only [lexCmp]
      split_ifs <;> rfl
    | cons d ds =>
      simp only [lexCmp]
      split_ifs <;> first | rfl | (exfalso; omega) | exact ih ds

theorem lexCmp_cons_ne_gt {x y : Char} {xs ys : Str}
    (h : lexCmp (x :: xs) (y :: ys) ≠ .gt) :
    charOrder x < charOrder y ∨ (charOrder x = charOrder y ∧ lexCmp xs ys ≠ .gt) := by
  by_cases hxy : charOrder x < charOrder y
  · exact Or.inl hxy
  · by_cases hyx : charOrder y < charOrder x
    · exfalso
      apply h
      simp only [lexCmp]
      rw [if_neg hxy, if_pos hyx]
    · refine Or.inr ⟨by omega, ?_⟩
      intro hrec
      apply h
      simp only [lexCmp]
      rw [if_neg hxy, if_neg hyx]
      exact hrec

theorem lexCmp_le_trans : ∀ {a b c : Str}, lexCmp a b ≠ .gt → lexCmp b c ≠ .gt →
    lexCmp a c ≠ .gt := by
  intro a
  induction a with
  | nil =>
    intro b c h1 h2
    cases c with
    | nil => simp [lexCmp]
    | cons z zs =>
      simp only [lexCmp]
      split_ifs with hz
      · exfalso
        cases b with
        | nil =>
          apply h2
          simp only [lexCmp]
          rw [if_pos hz]
        | cons y ys =>
          have hy : ¬ charOrder y < 0 := by
            intro hy
            apply h1
            simp only [lexCmp]
            rw [if_pos hy]
          apply h2
          simp only [lexCmp]
          rw [if_neg (by omega), if_pos (by omega)]
      · simp
  | cons x xs ih =>
    intro b c h1 h2
    cases c with
    | nil =>
      cases b with
      | nil => exact h1
      | cons y ys =>
        have hy : charOrder y < 0 := by
          by_contra hy
          apply h2
          simp only [lexCmp]
          rw [if_neg hy]
        have hx : charOrder x ≤ charOrder y := by
          by_contra hx
          apply h1
          simp only [lexCmp]
          rw [if_neg (by omega), if_pos (by omega)]
        simp only [lexCmp]
        rw [if_pos (by omega)]
        simp
    | cons z zs =>
      cases b with
      | nil =>
        have hx : charOrder x < 0 := by
          by_contra hx
          apply h1
          simp only [lexCmp]
          rw [if_neg hx]
        have hz : ¬ charOrder z < 0 := by
          intro hz
          apply h2
          simp only [lexCmp]
          rw [if_pos hz]
        simp only [lexCmp]
        rw [if_pos (by omega)]
        simp
      | cons y ys =>
        rcases lexCmp_cons_ne_gt h1 with hlt1 | ⟨heq1, hrec1⟩ <;>
          rcases lexCmp_cons_ne_gt h2 with hlt2 | ⟨heq2, hrec2⟩
        · simp only [lexCmp]
          rw [if_pos (by omega)]
          simp
        · simp only [lexCmp]
          rw [if_pos (by omega)]
          simp
        · simp only [lexCmp]
          rw [if_pos (by omega)]
          simp
        · simp only [lexCmp]
          rw [if_neg (by omega), if_neg (by omega)]
          exact ih hrec1 hrec2

/-! ### Fuel elimination for the segment algorithm -/

theorem length_dropWhile_le (p : Char → Bool) (l : Str) :
    (l.dropWhile p).length ≤ l.length := by
  induction l with
  | nil => simp
  | cons c t ih =>
    by_cases hc : p c
    · rw [List.dropWhile_cons_of_pos hc]
      simp only [List.length_cons]
      omega
    · rw [List.dropWhile_cons_of_neg hc]

theorem phaseRest_le (a : Str) :
    ((a.dropWhile nonDigit).dropWhile Char.isDigit).length ≤ a.length :=
  Nat.le_trans (length_dropWhile_le _ _) (length_dropWhile_le _ _)

theorem phaseRest_lt {a : Str} (h : a ≠ []) :
    ((a.dropWhile nonDigit).dropWhile Char.isDigit).length < a.length := by
  rcases a with _ | ⟨c, t⟩
  · exact absurd rfl h
  · by_cases hc : nonDigit c
    · rw [List.dropWhile_cons_of_pos hc]
      have := phaseRest_le t
      have h2 := length_dropWhile_le Char.isDigit (t.dropWhile nonDigit)
      have h3 := length_dropWhile_le nonDigit t
      simp only [List.length_cons]
      omega
    · rw [List.dropWhile_cons_of_neg hc]
      have hcd : Char.isDigit c = true := by
        simpa [nonDigit] using hc
      rw [List.dropWhile_cons_of_pos hcd]
      have := length_dropWhile_le Char.isDigit t
      simp only [List.length_cons]
      omega

theorem phase_sum_lt {a b : Str} (hab : ¬(a = [] ∧ b = [])) :
    ((a.dropWhile nonDigit).dropWhile Char.isDigit).length +
      ((b.dropWhile nonDigit).dropWhile Char.isDigit).length < a.length + b.length := by
  rcases not_and_or.mp hab with h | h
  · have h1 := phaseRest_lt h
    have h2 := phaseRest_le b
    omega
  · have h1 := phaseRest_le a
    have h2 := phaseRest_lt h
    omega

theorem verrevcmpFuel_congr : ∀ fuel a b, a.length + b.length ≤ fuel →
    verrevcmpFuel fuel a b = verrevcmpFuel (a.length + b.length) a b := by
  intro fuel
  induction fuel using Nat.strong_induction_on with
  | _ fuel ih =>
    intro a b hle
    match fuel with
    | 0 =>
      have ha : a = [] := List.eq_nil_of_length_eq_zero (by omega)
      have hb : b = [] := List.eq_nil_of_length_eq_zero (by omega)
      subst ha
      subst hb
      rfl
    | k + 1 =>
      by_cases hab : a = [] ∧ b = []
      · obtain ⟨ha, hb⟩ := hab
        subst ha
        subst hb
        rfl
      · have hpos := phase_sum_lt hab
        obtain ⟨j, hj⟩ : ∃ j, a.length + b.length = j + 1 :=
          ⟨a.length + b.length - 1, by omega⟩
        rw [hj]
        simp only [verrevcmpFuel]
        rw [if_neg hab, if_neg hab]
        have ha' := phaseRest_le a
        have hb' := phaseRest_le b
        rw [ih k (by omega) _ _ (by omega), ih j (by omega) _ _ (by omega)]

/-- The fuel-free unfolding of the segment algorithm: one full round,
recursing on the rests. -/
theorem verrevcmp_expand (a b : Str) :
    verrevcmp a b =
      (lexCmp (a.takeWhile nonDigit) (b.takeWhile nonDigit)).then
        ((natCmp (readNat ((a.dropWhile nonDigit).takeWhile Char.isDigit))
                 (readNat ((b.dropWhile nonDigit).takeWhile Char.isDigit))).then
          (verrevcmp ((a.dropWhile nonDigit).dropWhile Char.isDigit)
                     ((b.dropWhile nonDigit).dropWhile Char.isDigit))) := by
  by_cases hab : a = [] ∧ b = []
  · obtain ⟨ha, hb⟩ := hab
    subst ha
    subst hb
    rfl
  · have hpos := phase_sum_lt hab
    obtain ⟨j, hj⟩ : ∃ j, a.length + b.length = j + 1 :=
      ⟨a.length + b.length - 1, by omega⟩
    unfold verrevcmp
    rw [hj]
    simp only [verrevcmpFuel]
    rw [if_neg hab, verrevcmpFuel_congr j _ _ (by omega)]

/-! ### Laws of the segment algorithm -/

theorem verrevcmp_swap : ∀ a b : Str, verrevcmp a b = (verrevcmp b a).swap := by
  have main : ∀ n a b, a.length + b.length ≤ n →
      verrevcmp a b = (verrevcmp b a).swap := by
    intro n
    induction n using Nat.strong_induction_on with
    | _ n ih =>
      intro a b hn
      by_cases hab : a = [] ∧ b = []
      · obtain ⟨ha, hb⟩ := hab
        subst ha
        subst hb
        rfl
      · have hba : ¬(b = [] ∧ a = []) := fun hc => hab ⟨hc.2, hc.1⟩
        have hpos := phase_sum_lt hab
        rw [verrevcmp_expand a b, verrevcmp_expand b a]
        rw [Ordering.swap_then, Ordering.swap_then, ← lexCmp_swap, ← natCmp_swap]
        rw [ih (((a.dropWhile nonDigit).dropWhile Char.isDigit).length +
              ((b.dropWhile nonDigit).dropWhile Char.isDigit).length)
            (by omega) _ _ le_rfl]
  exact fun a b => main (a.length + b.length) a b le_rfl

theorem verrevcmp_le_trans : ∀ a b c : Str,
    verrevcmp a b ≠ .gt → verrevcmp b c ≠ .gt → verrevcmp a c ≠ .gt := by
  have main : ∀ n a b c, a.length + b.length + c.length ≤ n →
      verrevcmp a b ≠ .gt → verrevcmp b c ≠ .gt → verrevcmp a c ≠ .gt := by
    intro n
    induction n using Nat.strong_induction_on with
    | _ n ih =>
      intro a b c hn h1 h2
      by_cases hac : a = [] ∧ c = []
      · obtain ⟨ha, hc⟩ := hac
        subst ha
        subst hc
        intro hcon
        rw [verrevcmp_expand] at hcon
        simp [lexCmp, natCmp, readNat] at hcon
        rw [show verrevcmp ([] : Str) [] = .eq from rfl] at hcon
        exact absurd hcon (by decide)
      · rw [verrevcmp_expand a b] at h1
        rw [verrevcmp_expand b c] at h2
        rw [verrevcmp_expand a c]
        have hrest_a := phaseRest_le a
        have hrest_b := phaseRest_le b
        have hrest_c := phaseRest_le c
        have hsum : ((a.dropWhile nonDigit).dropWhile Char.isDigit).length +
            ((c.dropWhile nonDigit).dropWhile Char.isDigit).length <
            a.length + c.length := phase_sum_lt hac
        rcases then_ne_gt.mp h1 with hl1 | ⟨hl1, h1'⟩ <;>
          rcases then_ne_gt.mp h2 with hl2 | ⟨hl2, h2'⟩
        · refine then_ne_gt.mpr (Or.inl ?_)
          have := lexCmp_swap (b.takeWhile nonDigit) (c.takeWhile nonDigit)
          refine Decidable.byContradiction fun hne => ?_
          rcases hlac : lexCmp (a.takeWhile nonDigit) (c.takeWhile nonDigit) with _ | _ | _
          · exact hne hlac
          · -- eq: prefixes equal, but a < b and b < c forces a < c; contradiction
            have hpc : a.takeWhile nonDigit = c.takeWhile nonDigit := lexCmp_eq_iff.mp hlac
            rw [hpc] at hl1
            have hgt : lexCmp (b.takeWhile nonDigit) (c.takeWhile nonDigit) = .gt := by
              rw [lexCmp_swap, hl1]
              rfl
            rw [hgt] at hl2
            exact absurd hl2 (by decide)
          · have hle := lexCmp_le_trans (a := a.takeWhile nonDigit)
              (b := b.takeWhile nonDigit) (c := c.takeWhile nonDigit)
              (by rw [hl1]; decide) (by rw [hl2]; decide)
            exact hle hlac
        · have hpc : b.takeWhile nonDigit = c.takeWhile nonDigit := lexCmp_eq_iff.mp hl2
          refine then_ne_gt.mpr (Or.inl ?_)
          rw [← hpc]
          exact hl1
        · have hpc : a.takeWhile nonDigit = b.takeWhile nonDigit := lexCmp_eq_iff.mp hl1
          refine then_ne_gt.mpr (Or.inl ?_)
          rw [hpc]
          exact hl2
        · have hpab : a.takeWhile nonDigit = b.takeWhile nonDigit := lexCmp_eq_iff.mp hl1
          have hpbc : b.takeWhile nonDigit = c.takeWhile nonDigit := lexCmp_eq_iff.mp hl2
          refine then_ne_gt.mpr (Or.inr ⟨lexCmp_eq_iff.mpr (hpab.trans hpbc), ?_⟩)
          rcases then_ne_gt.mp h1' with hn1 | ⟨hn1, h1''⟩ <;>
            rcases then_ne_gt.mp h2' with hn2 | ⟨hn2, h2''⟩
          · refine then_ne_gt.mpr (Or.inl ?_)
            rw [natCmp_lt_iff] at hn1 hn2 ⊢
            omega
          · refine then_ne_gt.mpr (Or.inl ?_)
            rw [natCmp_lt_iff] at hn1 ⊢
            rw [natCmp_eq_iff] at hn2
            omega
          · refine then_ne_gt.mpr (Or.inl ?_)
            rw [natCmp_eq_iff] at hn1
            rw [natCmp_lt_iff] at hn2 ⊢
            omega
          · rw [natCmp_eq_iff] at hn1 hn2
            refine then_ne_gt.mpr (Or.inr ⟨natCmp_eq_iff.mpr (hn1.trans hn2), ?_⟩)
            exact ih (((a.dropWhile nonDigit).dropWhile Char.isDigit).length +
                ((b.dropWhile nonDigit).dropWhile Char.isDigit).length +
                ((c.dropWhile nonDigit).dropWhile Char.isDigit).length)
              (by omega) _ _ _ le_rfl h1'' h2''
  exact fun a b c => main (a.length + b.length + c.length) a b c le_rfl

/-! ### Total-preorder laws derived from swap-symmetry and transitivity
of the non-strict relation -/

section CmpDerived

variable {α : Type} {f : α → α → Ordering}

theorem cmp_refl_of_swap (hswap : ∀ x y, f x y = (f y x).swap) (a : α) :
    f a a = .eq := by
  have h := hswap a a
  cases hfa : f a a with
  | lt =>
    rw [hfa] at h
    exact absurd h (by decide)
  | eq => rfl
  | gt =>
    rw [hfa] at h
    exact absurd h (by decide)

theorem cmp_trans_le_lt (hswap : ∀ x y, f x y = (f y x).swap)
    (hle : ∀ x y z, f x y ≠ .gt → f y z ≠ .gt → f x z ≠ .gt)
    {x y z : α} (h1 : f x y ≠ .gt) (h2 : f y z = .lt) : f x z = .lt := by
  have hxz : f x z ≠ .gt := hle x y z h1 (by rw [h2]; decide)
  rcases hfa : f x z with _ | _ | _
  · rfl
  · exfalso
    have hzx : f z x ≠ .gt := by
      rw [hswap z x, hfa]
      decide
    have hzy : f z y ≠ .gt := hle z x y hzx h1
    exact hzy (by rw [hswap z y, h2]; rfl)
  · exact absurd hfa hxz

theorem cmp_trans_lt_le (hswap : ∀ x y, f x y = (f y x).swap)
    (hle : ∀ x y z, f x y ≠ .gt → f y z ≠ .gt → f x z ≠ .gt)
    {x y z : α} (h1 : f x y = .lt) (h2 : f y z ≠ .gt) : f x z = .lt := by
  have hxz : f x z ≠ .gt := hle x y z (by rw [h1]; decide) h2
  rcases hfa : f x z with _ | _ | _
  · rfl
  · exfalso
    have hzx : f z x ≠ .gt := by
      rw [hswap z x, hfa]
      decide
    have hyx : f y x ≠ .gt := hle y z x h2 hzx
    exact hyx (by rw [hswap y x, h1]; rfl)
  · exact absurd hfa hxz

theorem cmp_trans_eqeq (hswap : ∀ x y, f x y = (f y x).swap)
    (hle : ∀ x y z, f x y ≠ .gt → f y z ≠ .gt → f x z ≠ .gt)
    {x y z : α} (h1 : f x y = .eq) (h2 : f y z = .eq) : f x z = .eq := by
  have hxz : f x z ≠ .gt := hle x y z (by rw [h1]; decide) (by rw [h2]; decide)
  have hzx : f z x ≠ .gt :=
    hle z y x (by rw [hswap z y, h2]; decide) (by rw [hswap y x, h1]; decide)
  rcases hfa : f x z with _ | _ | _
  · exfalso
    apply hzx
    rw [hswap z x, hfa]
    rfl
  · rfl
  · exact absurd hfa hxz

end CmpDerived

/-! ### Laws of the full comparator -/

theorem compare_debian_swap (a b : DebianVersion) :
    compare_debian a b = (compare_debian b a).swap := by
  unfold compare_debian
  rw [Ordering.swap_then, Ordering.swap_then, ← natCmp_swap,
    ← verrevcmp_swap, ← verrevcmp_swap]

theorem compare_debian_le_trans : ∀ a b c : DebianVersion,
    compare_debian a b ≠ .gt → compare_debian b c ≠ .gt →
      compare_debian a c ≠ .gt := by
  intro a b c h1 h2
  unfold compare_debian at h1 h2 ⊢
  rcases then_ne_gt.mp h1 with he1 | ⟨he1, h1'⟩ <;>
    rcases then_ne_gt.mp h2 with he2 | ⟨he2, h2'⟩
  · refine then_ne_gt.mpr (Or.inl ?_)
    rw [natCmp_lt_iff] at he1 he2 ⊢
    omega
  · refine then_ne_gt.mpr (Or.inl ?_)
    rw [natCmp_lt_iff] at he1 ⊢
    rw [natCmp_eq_iff] at he2
    omega
  · refine then_ne_gt.mpr (Or.inl ?_)
    rw [natCmp_eq_iff] at he1
    rw [natCmp_lt_iff] at he2 ⊢
    omega
  · rw [natCmp_eq_iff] at he1 he2
    refine then_ne_gt.mpr (Or.inr ⟨natCmp_eq_iff.mpr (he1.trans he2), ?_⟩)
    rcases then_ne_gt.mp h1' with hu1 | ⟨hu1, h1''⟩ <;>
      rcases then_ne_gt.mp h2' with hu2 | ⟨hu2, h2''⟩
    · exact then_ne_gt.mpr (Or.inl
        (cmp_trans_lt_le verrevcmp_swap verrevcmp_le_trans hu1 (by rw [hu2]; decide)))
    · exact then_ne_gt.mpr (Or.inl
        (cmp_trans_lt_le verrevcmp_swap verrevcmp_le_trans hu1 (by rw [hu2]; decide)))
    · exact then_ne_gt.mpr (Or.inl
        (cmp_trans_le_lt verrevcmp_swap verrevcmp_le_trans (by rw [hu1]; decide) hu2))
    · refine then_ne_gt.mpr (Or.inr
        ⟨cmp_trans_eqeq verrevcmp_swap verrevcmp_le_trans hu1 hu2, ?_⟩)
      exact verrevcmp_le_trans _ _ _ h1'' h2''

/-! ### Claim C8 -/

/-- C8: the comparator — the §4.3 segment algorithm, modelled from the
spec because the crate delegates the ordering to the external
`rust_apt::util::cmp_versions` routine (`src/lib.rs:64-69`) whose code
is not part of this repository — is a total order on versions: every
comparison returns exactly one of Less/Equal/Greater, comparison is
reflexively Equal, strictly transitive, and `compare a b` is always the
inverse of `compare b a`. -/
theorem C8_total_order :
    (∀ a b : DebianVersion, compare_debian a b = .lt ∨ compare_debian a b = .eq ∨
      compare_debian a b = .gt) ∧
    (∀ a : DebianVersion, compare_debian a a = .eq) ∧
    (∀ a b c : DebianVersion, compare_debian a b = .lt → compare_debian b c = .lt →
      compare_debian a c = .lt) ∧
    (∀ a b : DebianVersion, compare_debian a b = (compare_debian b a).swap) := by
  refine ⟨?_, cmp_refl_of_swap compare_debian_swap, ?_, compare_debian_swap⟩
  · intro a b
    cases h : compare_debian a b
    · exact Or.inl rfl
    · exact Or.inr (Or.inl rfl)
    · exact Or.inr (Or.inr rfl)
  · intro a b c h1 h2
    exact cmp_trans_lt_le compare_debian_swap compare_debian_le_trans h1 (by rw [h2]; decide)

/-- Witness for C8: `1.0-1 < 1.0-2` and `1.0-2 < 1.1` chain to
`1.0-1 < 1.1`. -/
theorem C8_total_order_witness :
    compare_debian ⟨none, "1.0".data, some "1".data⟩ ⟨none, "1.1".data, none⟩ = .lt :=
  C8_total_order.2.2.1 ⟨none, "1.0".data, some "1".data⟩
    ⟨none, "1.0".data, some "2".data⟩ ⟨none, "1.1".data, none⟩ (by decide) (by decide)

/-! ### Claim C7 -/

/-- C7: for every string the parser accepts, rendering the resulting
version with `Display` — `[epoch:]upstream[-revision]`, omitting the
epoch with its colon and the revision with its dash when absent, which
is the definition of `to_string` — and re-parsing the rendering
succeeds and returns exactly the same version. -/
theorem C7_round_trip {s : Str} {v : DebianVersion} (h : from_str s = .ok v) :
    from_str (to_string v) = .ok v := by
  rcases from_str_ok h with ⟨first, rest, e, hsplit, hp, hcase⟩ | ⟨hsplit, hcase⟩
  · have hemax : e ≤ USIZE_MAX := parseUsize_le_max hp
    rcases hcase with ⟨up, rev, hrsplit, hval, hv⟩ | ⟨hrsplit, hval, hv⟩
    · obtain ⟨hrest, hnd⟩ := rsplitOnce_eq_some hrsplit
      subst hv
      show from_str (natDigits e ++ ':' :: (up ++ '-' :: rev)) = _
      have hne : natDigits e ++ ':' :: (up ++ '-' :: rev) ≠ [] := by simp
      have hs2 : splitOnce ':' (natDigits e ++ ':' :: (up ++ '-' :: rev)) =
          some (natDigits e, up ++ '-' :: rev) := splitOnce_append natDigits_no_colon
      have hr2 : rsplitOnce '-' (up ++ '-' :: rev) = some (up, rev) := rsplitOnce_append hnd
      unfold from_str
      rw [if_neg hne]
      simp only [hs2, parseUsize_natDigits hemax, hr2, hval]
    · subst hv
      show from_str (natDigits e ++ ':' :: rest) = _
      have hne : natDigits e ++ ':' :: rest ≠ [] := by simp
      have hs2 : splitOnce ':' (natDigits e ++ ':' :: rest) = some (natDigits e, rest) :=
        splitOnce_append natDigits_no_colon
      unfold from_str
      rw [if_neg hne]
      simp only [hs2, parseUsize_natDigits hemax, hrsplit, hval]
  · rcases hcase with ⟨up, rev, hrsplit, hval, hv⟩ | ⟨hrsplit, hval, hv⟩
    · obtain ⟨hrest, hnd⟩ := rsplitOnce_eq_some hrsplit
      subst hv
      show from_str (up ++ '-' :: rev) = _
      rw [← hrest]
      exact h
    · subst hv
      exact h

/-- Witness for C7 at `"5:1.0-1"`. -/
theorem C7_round_trip_witness :
    from_str (to_string ⟨some 5, "1.0".data, some "1".data⟩) =
      .ok ⟨some 5, "1.0".data, some "1".data⟩ :=
  C7_round_trip (show from_str "5:1.0-1".data =
    .ok ⟨some 5, "1.0".data, some "1".data⟩ by decide)

end Versian
